import Mathlib

/-!
Verification of the MtA (multiplicative-to-additive) share-conversion
implementation in `mta.py` against its specification.

The Python source is shallowly embedded: Python integers become `Int`
(Python's `%` with a positive modulus agrees with `Int.emod`), list
comprehensions become `List.range _ |>.map _`, the two-argument `map`
used for inner products becomes `List.zipWith`, exceptions become
`Except Err`, and every call to the random source (`randrange`) is
modelled by an explicit oracle argument (`Nat → Nat` for a stream of
draws, `Nat` for a single draw) so that theorems quantify over every
outcome of the internal sampling.  Python list indexing `l[i]` with an
`Int` index (which wraps negative indices and raises `IndexError` when
out of range) is modelled by `pyGet`.
-/

set_option maxRecDepth 8000

namespace MtA

/-- The global security parameter: `k = 512` in the source. -/
def k : Nat := 512

/-- Fuel-driven computation of `ceil(log2 q)`; this is a structurally
recursive model of Sage's `ceil(log(q, 2))` (exact for every `q`,
using the recurrence `ceil(log2 q) = 1 + ceil(log2 (ceil(q/2)))`). -/
def ceilLog2Aux : Nat → Nat → Nat
  | 0, _ => 0
  | fuel+1, q => if q ≤ 1 then 0 else ceilLog2Aux fuel ((q + 1) / 2) + 1

/-- `ceil(log2 q)`, the quantity `ceil(log(q, 2))` used to size `n`. -/
def ceilLog2 (q : Nat) : Nat := ceilLog2Aux q q

/-- The error taxonomy of the source.  The first five are the
`ValueError`s raised explicitly by `mta.py`; `pyIndexError` models the
`IndexError` Python itself raises on an out-of-range list subscript. -/
inductive Err where
  | invalidModulus
  | secretOutOfRange
  | indexOutOfRange
  | invalidSign
  | invalidPairing
  | pyIndexError
  deriving DecidableEq, Repr

deriving instance DecidableEq for Except

/-- `sample_t` from the source: given the draw `r` of `randrange(100)`,
returns `1` when `r % 2 == True` (Python `True == 1`) and `-1`
otherwise. -/
def sample_t (r : Nat) : Int :=
  if r % 2 = 1 then 1 else -1

/-- Python list subscript `l[i]` with an `Int` index: negative indices
count from the end, and an index out of `[-len, len)` raises
`IndexError`. -/
def pyGet (l : List Int) (i : Int) : Except Err Int :=
  let j : Int := if i < 0 then (l.length : Int) + i else i
  if 0 ≤ j ∧ j < (l.length : Int) then .ok (l.getD j.toNat 0)
  else .error .pyIndexError

/-- The state of `Player`: the secret, the modulus `q` and the derived
count `n`. -/
structure Player where
  secret : Int
  q : Nat
  n : Nat
  deriving DecidableEq, Repr

/-- `Player.__init__`: raises `InvalidModulus` when `q` is not prime,
`SecretOutOfRange` when `secret >= q`, and otherwise stores the secret,
the modulus and `n = ceil(log2 q) + k`. -/
def Player.init (secret : Int) (q : Nat) : Except Err Player :=
  if ¬ Nat.Prime q then .error .invalidModulus
  else if (q : Int) ≤ secret then .error .secretOutOfRange
  else .ok ⟨secret, q, ceilLog2 q + k⟩

/-- The state of `Sender`: a `Player` plus the mask vector `delta`. -/
structure Sender extends Player where
  delta : List Int
  deriving DecidableEq, Repr

/-- `Sender.__init__`: `Player.__init__` followed by sampling
`delta = [randrange(q) for _ in range(n)]`; the oracle `rd` supplies
the `randrange(q)` draws. -/
def Sender.init (a : Int) (q : Nat) (rd : Nat → Nat) : Except Err Sender :=
  (Player.init a q).map fun p => ⟨p, (List.range p.n).map fun i => (rd i : Int)⟩

/-- `Sender.ot`: raises `IndexOutOfRange` when `i >= len(delta)`,
`InvalidSign` when `t` is neither `1` nor `-1`, and otherwise returns
`(secret * t + delta[i]) % q` (with Python indexing for `delta[i]`). -/
def Sender.ot (s : Sender) (i t : Int) : Except Err Int :=
  if (s.delta.length : Int) ≤ i then .error .indexOutOfRange
  else if t ≠ 1 ∧ t ≠ -1 then .error .invalidSign
  else (pyGet s.delta i).map fun d => (s.secret * t + d) % (s.q : Int)

/-- The state of `Receiver`: a `Player` plus the sign vector `t`. -/
structure Receiver extends Player where
  t : List Int
  deriving DecidableEq, Repr

/-- `Receiver.__init__`: `Player.__init__` followed by sampling
`t = [sample_t() for _ in range(n)]`; the oracle `rt` supplies the
`randrange(100)` draw inside each `sample_t()` call. -/
def Receiver.init (b : Int) (q : Nat) (rt : Nat → Nat) : Except Err Receiver :=
  (Player.init b q).map fun p => ⟨p, (List.range p.n).map fun i => sample_t (rt i)⟩

/-- `sum(map(lambda x, y: x * y, xs, ys))`: the inner product of two
lists, truncated at the shorter one exactly as Python's 2-ary `map`. -/
def dot (xs ys : List Int) : Int :=
  (List.zipWith (fun x y => x * y) xs ys).sum

/-- `Receiver.v`: samples `v = [randrange(q) for _ in range(n)]` (oracle
`rv`), computes `tot = <t, v> % q` and `targ_b = (secret - tot) % q`,
picks `rnd = randrange(n)` (passed as the argument `rnd`), adds
`targ_b * t[rnd]` to `v[rnd]` and reduces that entry mod `q`. -/
def Receiver.v (r : Receiver) (rv : Nat → Nat) (rnd : Nat) : List Int :=
  let v0 := (List.range r.n).map fun i => ((rv i : Nat) : Int)
  let tot := dot r.t v0 % (r.q : Int)
  let targ_b := (r.secret - tot) % (r.q : Int)
  let v1 := v0.set rnd (v0.getD rnd 0 + targ_b * r.t.getD rnd 0)
  v1.set rnd (v1.getD rnd 0 % (r.q : Int))

/-- `play`: raises `InvalidPairing` when the moduli differ, else runs
`z = [sender.ot(i, receiver.t[i]) for i in range(sender.n)]`, obtains
`v = receiver.v()` and returns
`(-<delta, v> % q, <z, v> % q)`. -/
def play (receiver : Receiver) (sender : Sender) (rv : Nat → Nat) (rnd : Nat) :
    Except Err (Int × Int) :=
  if receiver.q ≠ sender.q then .error .invalidPairing
  else do
    let z ← (List.range sender.n).mapM fun (i : Nat) => do
      let ti ← pyGet receiver.t (i : Int)
      sender.ot (i : Int) ti
    let v := receiver.v rv rnd
    let q : Int := (sender.q : Int)
    pure ((-(dot sender.delta v)) % q, (dot z v) % q)

/-- A constant-zero random oracle, used for concrete protocol runs. -/
def zf : Nat → Nat := fun _ => 0

/-- A constant-one random oracle, used for concrete protocol runs. -/
def onef : Nat → Nat := fun _ => 1

/-- The sender produced by `Sender.init 1 2 zf`. -/
def s0 : Sender := ⟨⟨1, 2, 513⟩, List.replicate 513 0⟩

/-- The sender produced by `Sender.init 1 3 zf`. -/
def s1 : Sender := ⟨⟨1, 3, 514⟩, List.replicate 514 0⟩

/-- The sender produced by `Sender.init 1 2 onef`. -/
def s2 : Sender := ⟨⟨1, 2, 513⟩, List.replicate 513 1⟩

/-- The receiver produced by `Receiver.init 1 2 zf`. -/
def r0 : Receiver := ⟨⟨1, 2, 513⟩, List.replicate 513 (-1)⟩

/-! ### Basic arithmetic and list lemmas -/

/-- Reducing mod `q` is a congruence for `Int.ModEq q`. -/
lemma emod_modeq (a q : Int) : a % q ≡ a [ZMOD q] :=
  (Int.emod_emod_of_dvd a dvd_rfl).trans rfl

/-- `sample_t` only ever produces `1` or `-1`. -/
lemma sample_t_pm (x : Nat) : sample_t x = 1 ∨ sample_t x = -1 := by
  unfold sample_t
  split
  · exact Or.inl rfl
  · exact Or.inr rfl

@[simp] lemma dot_nil_left (ys : List Int) : dot [] ys = 0 := rfl

@[simp] lemma dot_nil_right (xs : List Int) : dot xs [] = 0 := by
  simp [dot]

@[simp] lemma dot_cons (x y : Int) (xs ys : List Int) :
    dot (x :: xs) (y :: ys) = x * y + dot xs ys := by
  simp [dot]

/-- `getD` after `set` at the same (in-range) index reads the new value. -/
lemma getD_set_self (l : List Int) (i : Nat) (x : Int) (h : i < l.length) :
    (l.set i x).getD i 0 = x := by
  simp [List.getD_eq_getElem?_getD, List.getElem?_set_self, h]

/-- `getD` over a mapped range evaluates the function. -/
lemma getD_map_range (f : Nat → Int) (n i : Nat) (h : i < n) :
    ((List.range n).map f).getD i 0 = f i := by
  simp [List.getD_eq_getElem?_getD, List.getElem?_range, h]

/-- An in-range `getD` value is a member of the list. -/
lemma getD_mem (l : List Int) (i : Nat) (h : i < l.length) : l.getD i 0 ∈ l := by
  rw [List.getD_eq_getElem l 0 h]
  exact List.getElem_mem h

/-- Overwriting one entry of the right factor shifts the inner product
by the sign at that entry times the change. -/
lemma dot_set_eq (ts vs : List Int) (j : Nat) (x : Int)
    (hj : j < ts.length) (hl : ts.length = vs.length) :
    dot ts (vs.set j x) = dot ts vs + ts.getD j 0 * (x - vs.getD j 0) := by
  induction ts generalizing vs j with
  | nil => simp at hj
  | cons a ts ih =>
    cases vs with
    | nil => simp at hl
    | cons v vs =>
      cases j with
      | zero =>
        simp only [List.set_cons_zero, dot_cons, List.getD_cons_zero]
        ring
      | succ j =>
        have hj2 : j < ts.length := by simpa using hj
        have hl2 : ts.length = vs.length := by simpa using hl
        simp only [List.set_cons_succ, dot_cons, List.getD_cons_succ]
        rw [ih vs j hj2 hl2]
        ring

/-- Building a list by indexing two equal-length lists over their range
is the same as zipping them. -/
lemma map_range_getD_eq_zipWith (f : Int → Int → Int) (ts ds : List Int)
    (h : ts.length = ds.length) :
    (List.range ts.length).map (fun i => f (ts.getD i 0) (ds.getD i 0)) =
      List.zipWith f ts ds := by
  induction ts generalizing ds with
  | nil => simp
  | cons a ts ih =>
    cases ds with
    | nil => simp at h
    | cons d ds =>
      rw [List.length_cons, List.range_succ_eq_map, List.map_cons, List.map_map]
      simp only [Function.comp_def, Nat.succ_eq_add_one, List.getD_cons_zero,
        List.getD_cons_succ, List.zipWith_cons_cons]
      rw [ih ds (by simpa using h)]

/-- `mapM` over `Except` succeeds pointwise iff every element does. -/
lemma mapM_ok {α β : Type} (f : α → Except Err β) (g : α → β) (l : List α)
    (h : ∀ a ∈ l, f a = .ok (g a)) :
    l.mapM f = .ok (l.map g) := by
  induction l with
  | nil => rfl
  | cons a l ih =>
    rw [List.mapM_cons, h a (by simp),
      ih (fun x hx => h x (by simp [hx]))]
    rfl

/-! ### Inversion lemmas for the constructors -/

/-- Inversion for a successful `Player.init`. -/
lemma player_init_ok {secret : Int} {q : Nat} {p : Player}
    (h : Player.init secret q = .ok p) :
    q.Prime ∧ secret < (q : Int) ∧ p = ⟨secret, q, ceilLog2 q + k⟩ := by
  unfold Player.init at h
  split at h
  · simp at h
  next hq =>
    split at h
    · simp at h
    next hs =>
      refine ⟨not_not.mp hq, lt_of_not_le hs, ?_⟩
      exact (Except.ok.inj h).symm

/-- Inversion for a successful `Sender.init`. -/
lemma sender_init_ok {a : Int} {q : Nat} {rd : Nat → Nat} {s : Sender}
    (h : Sender.init a q rd = .ok s) :
    q.Prime ∧ a < (q : Int) ∧
      s = ⟨⟨a, q, ceilLog2 q + k⟩,
        (List.range (ceilLog2 q + k)).map fun i => (rd i : Int)⟩ := by
  unfold Sender.init at h
  cases hp : Player.init a q with
  | error e => rw [hp] at h; simp [Except.map] at h
  | ok p =>
    rw [hp] at h
    obtain ⟨h1, h2, h3⟩ := player_init_ok hp
    simp only [Except.map] at h
    refine ⟨h1, h2, ?_⟩
    rw [h3] at h
    exact (Except.ok.inj h).symm

/-- Inversion for a successful `Receiver.init`. -/
lemma receiver_init_ok {b : Int} {q : Nat} {rt : Nat → Nat} {r : Receiver}
    (h : Receiver.init b q rt = .ok r) :
    q.Prime ∧ b < (q : Int) ∧
      r = ⟨⟨b, q, ceilLog2 q + k⟩,
        (List.range (ceilLog2 q + k)).map fun i => sample_t (rt i)⟩ := by
  unfold Receiver.init at h
  cases hp : Player.init b q with
  | error e => rw [hp] at h; simp [Except.map] at h
  | ok p =>
    rw [hp] at h
    obtain ⟨h1, h2, h3⟩ := player_init_ok hp
    simp only [Except.map] at h
    refine ⟨h1, h2, ?_⟩
    rw [h3] at h
    exact (Except.ok.inj h).symm

/-- A constructed sender has `len(delta) = n`. -/
lemma sender_init_len {a : Int} {q : Nat} {rd : Nat → Nat} {s : Sender}
    (h : Sender.init a q rd = .ok s) : s.delta.length = s.n := by
  obtain ⟨-, -, rfl⟩ := sender_init_ok h
  simp

/-- A constructed receiver has `len(t) = n`. -/
lemma receiver_init_len {b : Int} {q : Nat} {rt : Nat → Nat} {r : Receiver}
    (h : Receiver.init b q rt = .ok r) : r.t.length = r.n := by
  obtain ⟨-, -, rfl⟩ := receiver_init_ok h
  simp

/-- Every entry of a constructed receiver's sign vector is `1` or `-1`. -/
lemma receiver_init_t_pm {b : Int} {q : Nat} {rt : Nat → Nat} {r : Receiver}
    (h : Receiver.init b q rt = .ok r) : ∀ y ∈ r.t, y = 1 ∨ y = -1 := by
  obtain ⟨-, -, rfl⟩ := receiver_init_ok h
  intro y hy
  simp only [List.mem_map] at hy
  obtain ⟨i, -, hi⟩ := hy
  rw [← hi]
  exact sample_t_pm (rt i)

/-! ### Computation lemmas for `pyGet`, `Sender.ot` and `play` -/

/-- `pyGet` at a nonnegative in-range index reads the list. -/
lemma pyGet_nat (l : List Int) (i : Nat) (h : i < l.length) :
    pyGet l (i : Int) = .ok (l.getD i 0) := by
  simp only [pyGet]
  have h0 : ¬ ((i : Int) < 0) := by omega
  rw [if_neg h0, if_pos ⟨Int.natCast_nonneg i, by exact_mod_cast h⟩,
    Int.toNat_natCast]

/-- `Sender.ot` at an in-range index and a valid sign returns
`(secret * t + delta[i]) % q`. -/
lemma ot_ok (s : Sender) (i : Nat) (t : Int) (hi : i < s.delta.length)
    (ht : t = 1 ∨ t = -1) :
    s.ot (i : Int) t = .ok ((s.secret * t + s.delta.getD i 0) % (s.q : Int)) := by
  unfold Sender.ot
  rw [if_neg (by exact_mod_cast not_le.mpr hi),
    if_neg (by rcases ht with h | h <;> simp [h]),
    pyGet_nat s.delta i hi]
  rfl

/-- The inner product of the OT answer vector against any `vs` is
congruent mod `q` to `a * <ts, vs> + <ds, vs>`. -/
lemma dot_zipWith_ot (a qi : Int) (ts ds vs : List Int)
    (hl : ts.length = ds.length) :
    dot (List.zipWith (fun t d => (a * t + d) % qi) ts ds) vs ≡
      a * dot ts vs + dot ds vs [ZMOD qi] := by
  induction ts generalizing ds vs with
  | nil =>
    cases ds with
    | nil => simp
    | cons d ds => simp at hl
  | cons t ts ih =>
    cases ds with
    | nil => simp at hl
    | cons d ds =>
      cases vs with
      | nil => simp
      | cons v vs =>
        rw [List.zipWith_cons_cons, dot_cons, dot_cons, dot_cons]
        have h1 : ((a * t + d) % qi) * v ≡ (a * t + d) * v [ZMOD qi] :=
          Int.ModEq.mul_right v (emod_modeq _ _)
        have h2 := ih ds vs (by simpa using hl)
        calc ((a * t + d) % qi) * v +
              dot (List.zipWith (fun t d => (a * t + d) % qi) ts ds) vs
            ≡ (a * t + d) * v + (a * dot ts vs + dot ds vs) [ZMOD qi] :=
              Int.ModEq.add h1 h2
          _ = a * (t * v + dot ts vs) + (d * v + dot ds vs) := by ring

/-- Adjusting one entry of `v0` by the reduced deficit restores the
inner-product constraint mod `q`: the core of `Receiver.v`. -/
lemma dot_set_adjust (ts v0 : List Int) (qi b : Int) (rnd : Nat)
    (hl : ts.length = v0.length) (hrnd : rnd < ts.length)
    (ht : ts.getD rnd 0 = 1 ∨ ts.getD rnd 0 = -1) :
    dot ts (v0.set rnd ((v0.getD rnd 0 +
      ((b - dot ts v0 % qi) % qi) * ts.getD rnd 0) % qi)) ≡ b [ZMOD qi] := by
  rw [dot_set_eq ts v0 rnd _ hrnd hl]
  have h4 : ts.getD rnd 0 * ts.getD rnd 0 = 1 := by
    rcases ht with h | h <;> rw [h] <;> ring
  have h1 : (v0.getD rnd 0 + ((b - dot ts v0 % qi) % qi) * ts.getD rnd 0) % qi ≡
      v0.getD rnd 0 + ((b - dot ts v0 % qi) % qi) * ts.getD rnd 0 [ZMOD qi] :=
    emod_modeq _ _
  calc dot ts v0 + ts.getD rnd 0 *
        ((v0.getD rnd 0 + ((b - dot ts v0 % qi) % qi) * ts.getD rnd 0) % qi -
          v0.getD rnd 0)
      ≡ dot ts v0 + ts.getD rnd 0 *
        ((v0.getD rnd 0 + ((b - dot ts v0 % qi) % qi) * ts.getD rnd 0) -
          v0.getD rnd 0) [ZMOD qi] :=
        Int.ModEq.add_left _ (Int.ModEq.mul_left _ (Int.ModEq.sub_right _ h1))
    _ = dot ts v0 + ((b - dot ts v0 % qi) % qi) *
          (ts.getD rnd 0 * ts.getD rnd 0) := by ring
    _ = dot ts v0 + ((b - dot ts v0 % qi) % qi) := by rw [h4]; ring
    _ ≡ dot ts v0 + (b - dot ts v0 % qi) [ZMOD qi] :=
        Int.ModEq.add_left _ (emod_modeq _ _)
    _ ≡ dot ts v0 + (b - dot ts v0) [ZMOD qi] :=
        Int.ModEq.add_left _ (Int.ModEq.sub_left _ (emod_modeq _ _))
    _ = b := by ring

/-- `Receiver.v` written as a single update of the freshly sampled
vector: the two successive writes to `v[rnd]` merge. -/
lemma receiver_v_eq (r : Receiver) (rv : Nat → Nat) (rnd : Nat) (hrnd : rnd < r.n) :
    r.v rv rnd =
      ((List.range r.n).map fun i => ((rv i : Nat) : Int)).set rnd
        ((((List.range r.n).map fun i => ((rv i : Nat) : Int)).getD rnd 0 +
          ((r.secret - dot r.t ((List.range r.n).map fun i => ((rv i : Nat) : Int)) %
              (r.q : Int)) % (r.q : Int)) * r.t.getD rnd 0) % (r.q : Int)) := by
  simp only [Receiver.v]
  rw [getD_set_self _ _ _ (by simpa using hrnd), List.set_set]

/-- The reconstruction constraint mod `q`, for any constructed-like
receiver state: `<t, v()> ≡ secret  (mod q)`. -/
lemma dot_v_modeq (r : Receiver) (rv : Nat → Nat) (rnd : Nat)
    (hrnd : rnd < r.n) (hlen : r.t.length = r.n)
    (ht : ∀ y ∈ r.t, y = 1 ∨ y = -1) :
    dot r.t (r.v rv rnd) ≡ r.secret [ZMOD (r.q : Int)] := by
  rw [receiver_v_eq r rv rnd hrnd]
  exact dot_set_adjust r.t _ _ _ rnd (by simp [hlen]) (by rw [hlen]; exact hrnd)
    (ht _ (getD_mem _ _ (by rw [hlen]; exact hrnd)))

/-- A successful run of `play` computes exactly the two share formulas
of the source. -/
lemma play_ok (r : Receiver) (s : Sender) (rv : Nat → Nat) (rnd : Nat)
    (hq : r.q = s.q) (hlt : r.t.length = s.n) (hld : s.delta.length = s.n)
    (ht : ∀ y ∈ r.t, y = 1 ∨ y = -1) :
    play r s rv rnd = .ok
      ((-(dot s.delta (r.v rv rnd))) % (s.q : Int),
       (dot (List.zipWith (fun t d => (s.secret * t + d) % (s.q : Int)) r.t s.delta)
          (r.v rv rnd)) % (s.q : Int)) := by
  unfold play
  rw [if_neg (by simp [hq])]
  have hz : ((List.range s.n).mapM fun (i : Nat) => do
      let ti ← pyGet r.t (i : Int)
      s.ot (i : Int) ti) = .ok ((List.range s.n).map fun i =>
        (s.secret * r.t.getD i 0 + s.delta.getD i 0) % (s.q : Int)) := by
    apply mapM_ok
    intro i hi
    rw [List.mem_range] at hi
    have hti : i < r.t.length := by rw [hlt]; exact hi
    show (pyGet r.t (i : Int)).bind (fun ti => s.ot (i : Int) ti) = _
    rw [pyGet_nat r.t i hti]
    show s.ot (i : Int) (r.t.getD i 0) = _
    exact ot_ok s i _ (by rw [hld]; exact hi) (ht _ (getD_mem _ _ hti))
  rw [hz]
  have hmap : ((List.range s.n).map fun i =>
      (s.secret * r.t.getD i 0 + s.delta.getD i 0) % (s.q : Int)) =
      List.zipWith (fun t d => (s.secret * t + d) % (s.q : Int)) r.t s.delta := by
    rw [← hlt]
    exact map_range_getD_eq_zipWith (fun t d => (s.secret * t + d) % (s.q : Int))
      r.t s.delta (by rw [hlt, hld])
  rw [hmap]
  rfl

/-! ### Accessor lemmas for constructed parties -/

/-- A constructed sender keeps the modulus it was given. -/
lemma sender_init_q {a : Int} {q : Nat} {rd : Nat → Nat} {s : Sender}
    (h : Sender.init a q rd = .ok s) : s.q = q := by
  obtain ⟨-, -, rfl⟩ := sender_init_ok h
  rfl

/-- A constructed sender keeps the secret it was given. -/
lemma sender_init_secret {a : Int} {q : Nat} {rd : Nat → Nat} {s : Sender}
    (h : Sender.init a q rd = .ok s) : s.secret = a := by
  obtain ⟨-, -, rfl⟩ := sender_init_ok h
  rfl

/-- A constructed sender has `n = ceil(log2 q) + k`. -/
lemma sender_init_n {a : Int} {q : Nat} {rd : Nat → Nat} {s : Sender}
    (h : Sender.init a q rd = .ok s) : s.n = ceilLog2 q + k := by
  obtain ⟨-, -, rfl⟩ := sender_init_ok h
  rfl

/-- A constructed sender's masks are exactly the `randrange(q)` draws. -/
lemma sender_init_delta {a : Int} {q : Nat} {rd : Nat → Nat} {s : Sender}
    (h : Sender.init a q rd = .ok s) :
    s.delta = (List.range s.n).map fun i => (rd i : Int) := by
  obtain ⟨-, -, rfl⟩ := sender_init_ok h
  rfl

/-- A constructed sender's modulus is prime. -/
lemma sender_init_prime {a : Int} {q : Nat} {rd : Nat → Nat} {s : Sender}
    (h : Sender.init a q rd = .ok s) : q.Prime :=
  (sender_init_ok h).1

/-- A constructed receiver keeps the modulus it was given. -/
lemma receiver_init_q {b : Int} {q : Nat} {rt : Nat → Nat} {r : Receiver}
    (h : Receiver.init b q rt = .ok r) : r.q = q := by
  obtain ⟨-, -, rfl⟩ := receiver_init_ok h
  rfl

/-- A constructed receiver keeps the secret it was given. -/
lemma receiver_init_secret {b : Int} {q : Nat} {rt : Nat → Nat} {r : Receiver}
    (h : Receiver.init b q rt = .ok r) : r.secret = b := by
  obtain ⟨-, -, rfl⟩ := receiver_init_ok h
  rfl

/-- A constructed receiver has `n = ceil(log2 q) + k`. -/
lemma receiver_init_n {b : Int} {q : Nat} {rt : Nat → Nat} {r : Receiver}
    (h : Receiver.init b q rt = .ok r) : r.n = ceilLog2 q + k := by
  obtain ⟨-, -, rfl⟩ := receiver_init_ok h
  rfl

/-- A constructed receiver's modulus is prime. -/
lemma receiver_init_prime {b : Int} {q : Nat} {rt : Nat → Nat} {r : Receiver}
    (h : Receiver.init b q rt = .ok r) : q.Prime :=
  (receiver_init_ok h).1

/-- Every entry of any produced reconstruction vector lies in `[0, q)`,
and its length is `n`. -/
lemma v_range (r : Receiver) (rv : Nat → Nat) (rnd : Nat)
    (hrv : ∀ i, rv i < r.q) (hq : 0 < r.q) (hrnd : rnd < r.n) :
    (r.v rv rnd).length = r.n ∧ ∀ x ∈ r.v rv rnd, 0 ≤ x ∧ x < (r.q : Int) := by
  rw [receiver_v_eq r rv rnd hrnd]
  refine ⟨by simp, ?_⟩
  intro x hx
  rcases List.mem_or_eq_of_mem_set hx with hx2 | hx2
  · rw [List.mem_map] at hx2
    obtain ⟨i, -, hi⟩ := hx2
    rw [← hi]
    exact ⟨Int.natCast_nonneg _, by exact_mod_cast hrv i⟩
  · have hq2 : (0 : Int) < (r.q : Int) := by exact_mod_cast hq
    rw [hx2]
    exact ⟨Int.emod_nonneg _ (by omega), Int.emod_lt_of_pos _ hq2⟩

/-! ### The claims -/

/-- C1: For every prime modulus `q`, every pair of secrets
`a, b ∈ [0, q)`, a sender constructed with `(a, q)` and a receiver
constructed with `(b, q)`, `play receiver sender` returns a pair
`(p1, p2)` with `(p1 + p2) % q = (a * b) % q`, for every outcome of
the internal random sampling (the oracles `rd`, `rt`, `rv` and the
in-range draw `rnd` of `randrange(n)`). -/
theorem play_shares_sum_to_product (a b : Int) (q : Nat)
    (rd rt rv : Nat → Nat) (rnd : Nat) (s : Sender) (r : Receiver)
    (hs : Sender.init a q rd = .ok s)
    (hr : Receiver.init b q rt = .ok r)
    (hrnd : rnd < r.n)
    (ha : 0 ≤ a ∧ a < (q : Int)) (hb : 0 ≤ b ∧ b < (q : Int)) :
    ∃ p : Int × Int, play r s rv rnd = .ok p ∧
      (p.1 + p.2) % (q : Int) = (a * b) % (q : Int) := by
  have hq1 := sender_init_q hs
  have hq2 := receiver_init_q hr
  have hn : r.n = s.n := by rw [sender_init_n hs, receiver_init_n hr]
  have hlt : r.t.length = s.n := by rw [receiver_init_len hr, hn]
  have hld := sender_init_len hs
  refine ⟨_, play_ok r s rv rnd (by rw [hq1, hq2]) hlt hld
    (receiver_init_t_pm hr), ?_⟩
  rw [← hq1]
  show ((-(dot s.delta (r.v rv rnd))) % (s.q : Int) +
      (dot (List.zipWith (fun t d => (s.secret * t + d) % (s.q : Int)) r.t s.delta)
        (r.v rv rnd)) % (s.q : Int)) % (s.q : Int) = (a * b) % (s.q : Int)
  set qi : Int := (s.q : Int) with hqi
  set v := r.v rv rnd with hv
  set D := dot s.delta v with hD
  set Z := dot (List.zipWith (fun t d => (s.secret * t + d) % qi) r.t s.delta) v
    with hZdef
  have h1 : (-D) % qi + Z % qi ≡ -D + Z [ZMOD qi] :=
    Int.ModEq.add (emod_modeq _ _) (emod_modeq _ _)
  have hZ : Z ≡ s.secret * dot r.t v + D [ZMOD qi] :=
    dot_zipWith_ot s.secret qi r.t s.delta v (by rw [hlt, hld])
  have hT : dot r.t v ≡ r.secret [ZMOD qi] := by
    have h := dot_v_modeq r rv rnd hrnd (receiver_init_len hr)
      (receiver_init_t_pm hr)
    rw [hq2, ← hq1] at h
    exact h
  calc (-D) % qi + Z % qi
      ≡ -D + Z [ZMOD qi] := h1
    _ ≡ -D + (s.secret * dot r.t v + D) [ZMOD qi] := Int.ModEq.add_left _ hZ
    _ = s.secret * dot r.t v := by ring
    _ ≡ s.secret * r.secret [ZMOD qi] := Int.ModEq.mul_left _ hT
    _ = a * b := by rw [sender_init_secret hs, receiver_init_secret hr]

/-- C2: For every receiver constructed with secret `b ∈ [0, q)` and
prime `q`, every vector returned by `Receiver.v` (under every outcome
of the sampling, with the draw `rnd` of `randrange(n)` in range)
satisfies `<t, v> % q = b`, where `t` is the stored sign vector. -/
theorem v_reconstruction_constraint (b : Int) (q : Nat) (rt rv : Nat → Nat)
    (rnd : Nat) (r : Receiver)
    (hr : Receiver.init b q rt = .ok r)
    (hrnd : rnd < r.n)
    (hb : 0 ≤ b ∧ b < (q : Int)) :
    dot r.t (r.v rv rnd) % (q : Int) = b := by
  have h := dot_v_modeq r rv rnd hrnd (receiver_init_len hr)
    (receiver_init_t_pm hr)
  rw [receiver_init_q hr, receiver_init_secret hr] at h
  have h2 : dot r.t (r.v rv rnd) % (q : Int) = b % (q : Int) := h
  rw [h2, Int.emod_eq_of_lt hb.1 hb.2]

/-- C3: For every successfully constructed sender, every index
`i ∈ [0, n)` and every sign `t ∈ {1, -1}`, `Sender.ot` succeeds and
returns exactly `(secret * t + delta[i]) % q`. -/
theorem ot_answer_formula (a : Int) (q : Nat) (rd : Nat → Nat) (s : Sender)
    (i : Nat) (t : Int)
    (hs : Sender.init a q rd = .ok s)
    (hi : i < s.n) (ht : t = 1 ∨ t = -1) :
    s.ot (i : Int) t = .ok ((s.secret * t + s.delta.getD i 0) % (s.q : Int)) :=
  ot_ok s i t (by rw [sender_init_len hs]; exact hi) ht

/-- C4: Constructing any party with a composite modulus fails with
`InvalidModulus` regardless of the secret (even a secret that is also
out of range), and constructing with a prime modulus and a secret
`≥ q` fails with `SecretOutOfRange`. -/
theorem construction_validation (secret : Int) (q : Nat) (rd rt : Nat → Nat) :
    (¬ q.Prime →
      Player.init secret q = .error .invalidModulus ∧
      Sender.init secret q rd = .error .invalidModulus ∧
      Receiver.init secret q rt = .error .invalidModulus) ∧
    (q.Prime → (q : Int) ≤ secret →
      Player.init secret q = .error .secretOutOfRange ∧
      Sender.init secret q rd = .error .secretOutOfRange ∧
      Receiver.init secret q rt = .error .secretOutOfRange) := by
  constructor
  · intro hq
    have hp : Player.init secret q = .error .invalidModulus := by
      unfold Player.init
      rw [if_pos hq]
    refine ⟨hp, ?_, ?_⟩
    · unfold Sender.init; rw [hp]; rfl
    · unfold Receiver.init; rw [hp]; rfl
  · intro hq hsec
    have hp : Player.init secret q = .error .secretOutOfRange := by
      unfold Player.init
      rw [if_neg (not_not.mpr hq), if_pos hsec]
    refine ⟨hp, ?_, ?_⟩
    · unfold Sender.init; rw [hp]; rfl
    · unfold Receiver.init; rw [hp]; rfl

/-- C5: For every successfully constructed sender, `Sender.ot` fails
with `IndexOutOfRange` whenever `i ≥ n`, and fails with `InvalidSign`
whenever `i < n` and the sign is neither `1` nor `-1`; in each case an
error is returned instead of an answer. -/
theorem ot_query_validation (a : Int) (q : Nat) (rd : Nat → Nat) (s : Sender)
    (i t : Int) (hs : Sender.init a q rd = .ok s) :
    ((s.n : Int) ≤ i → s.ot i t = .error .indexOutOfRange) ∧
      (i < (s.n : Int) → t ≠ 1 → t ≠ -1 → s.ot i t = .error .invalidSign) := by
  have hlen := sender_init_len hs
  constructor
  · intro hi
    unfold Sender.ot
    rw [if_pos (by rw [hlen]; exact hi)]
  · intro hi h1 h2
    unfold Sender.ot
    rw [if_neg (by rw [hlen]; omega), if_pos ⟨h1, h2⟩]

/-- C6: For every receiver and sender constructed with different
moduli, `play` fails with `InvalidPairing`: the run aborts at the very
first check, so no OT query is answered and no share is returned. -/
theorem play_pairing_validation (a b : Int) (q1 q2 : Nat)
    (rd rt rv : Nat → Nat) (rnd : Nat) (s : Sender) (r : Receiver)
    (hs : Sender.init a q1 rd = .ok s) (hr : Receiver.init b q2 rt = .ok r)
    (hq : q2 ≠ q1) :
    play r s rv rnd = .error .invalidPairing := by
  unfold play
  rw [if_pos (show r.q ≠ s.q by
    rw [receiver_init_q hr, sender_init_q hs]; exact hq)]

/-- C9: `sample_t` only ever returns `1` or `-1`, and consequently
every successfully constructed receiver has a sign vector of length
exactly `n` whose entries are all `1` or `-1` (the embedding is pure,
so the vector never changes after construction). -/
theorem sign_vector_pm (b : Int) (q : Nat) (rt : Nat → Nat) (r : Receiver)
    (hr : Receiver.init b q rt = .ok r) :
    (∀ x : Nat, sample_t x = 1 ∨ sample_t x = -1) ∧
      r.t.length = r.n ∧ ∀ y ∈ r.t, y = 1 ∨ y = -1 :=
  ⟨sample_t_pm, receiver_init_len hr, receiver_init_t_pm hr⟩

/-- C10: For every successfully constructed sender the mask vector has
length exactly `n` and all entries in `[0, q)` (given that the
`randrange(q)` oracle honours its contract), and every vector returned
by `Receiver.v` has length exactly `n` and all entries in `[0, q)`,
including the adjusted one. -/
theorem range_invariants (a b : Int) (q : Nat) (rd rt rv : Nat → Nat)
    (rnd : Nat) (s : Sender) (r : Receiver)
    (hs : Sender.init a q rd = .ok s) (hr : Receiver.init b q rt = .ok r)
    (hrd : ∀ i, rd i < q) (hrv : ∀ i, rv i < q) (hrnd : rnd < r.n) :
    (s.delta.length = s.n ∧ ∀ x ∈ s.delta, 0 ≤ x ∧ x < (s.q : Int)) ∧
      (r.v rv rnd).length = r.n ∧ ∀ x ∈ r.v rv rnd, 0 ≤ x ∧ x < (r.q : Int) := by
  refine ⟨⟨sender_init_len hs, ?_⟩, ?_⟩
  · intro x hx
    rw [sender_init_delta hs, List.mem_map] at hx
    obtain ⟨i, -, hi⟩ := hx
    rw [← hi, sender_init_q hs]
    exact ⟨Int.natCast_nonneg _, by exact_mod_cast hrd i⟩
  · refine v_range r rv rnd ?_ ?_ hrnd
    · rw [receiver_init_q hr]; exact hrv
    · rw [receiver_init_q hr]; exact (receiver_init_prime hr).pos

/-- C7: Contrary to the specification, `Player.__init__` accepts a
negative secret: with the representable value `secret = -1` and the
prime `q = 5` the constructor succeeds (storing the negative secret)
instead of failing with `SecretOutOfRange` — the code only checks
`secret >= q`. -/
theorem negative_secret_accepted :
    Player.init (-1) 5 = .ok ⟨-1, 5, 515⟩ := by decide

/-- C8: Contrary to the specification, `Sender.ot` silently wraps a
negative index: on the sender built by `Sender.init 1 2 onef` (so
`n = 513` and every mask is `1`), the call `ot(-1, 1)` does not
surface an error but returns the answer `(1 * 1 + delta[512]) % 2 = 0`
computed from the in-range position `512` of the mask vector (Python
list indexing wraps `-1` to `len - 1`). -/
theorem negative_index_wraps :
    Sender.init 1 2 onef = .ok s2 ∧ s2.ot (-1) 1 = .ok 0 := by
  constructor
  · decide
  · decide

/-! ### Witnesses: the hypotheses of each claim are satisfiable -/

/-- C1 witness: a concrete run over `q = 2` with both secrets `1`. -/
theorem play_shares_sum_to_product_witness :
    Sender.init 1 2 zf = .ok s0 ∧ Receiver.init 1 2 zf = .ok r0 ∧ 0 < r0.n ∧
      ∃ p : Int × Int, play r0 s0 zf 0 = .ok p ∧
        (p.1 + p.2) % ((2 : Nat) : Int) = (1 * 1) % ((2 : Nat) : Int) :=
  have h1 : Sender.init 1 2 zf = .ok s0 := by decide
  have h2 : Receiver.init 1 2 zf = .ok r0 := by decide
  have h3 : 0 < r0.n := by decide
  ⟨h1, h2, h3, play_shares_sum_to_product 1 1 2 zf zf zf 0 s0 r0 h1 h2 h3
    ⟨by decide, by decide⟩ ⟨by decide, by decide⟩⟩

/-- C2 witness: a concrete reconstruction vector over `q = 2`. -/
theorem v_reconstruction_constraint_witness :
    Receiver.init 1 2 zf = .ok r0 ∧ 0 < r0.n ∧
      dot r0.t (r0.v zf 0) % ((2 : Nat) : Int) = 1 :=
  have h2 : Receiver.init 1 2 zf = .ok r0 := by decide
  have h3 : 0 < r0.n := by decide
  ⟨h2, h3, v_reconstruction_constraint 1 2 zf zf 0 r0 h2 h3
    ⟨by decide, by decide⟩⟩

/-- C3 witness: a concrete OT answer at index `0` and sign `-1`. -/
theorem ot_answer_formula_witness :
    Sender.init 1 2 zf = .ok s0 ∧ 0 < s0.n ∧
      s0.ot ((0 : Nat) : Int) (-1) =
        .ok ((s0.secret * (-1) + s0.delta.getD 0 0) % (s0.q : Int)) :=
  have h1 : Sender.init 1 2 zf = .ok s0 := by decide
  have h3 : (0 : Nat) < s0.n := by decide
  ⟨h1, h3, ot_answer_formula 1 2 zf s0 0 (-1) h1 h3 (Or.inr rfl)⟩

/-- C4 witness: `q = 4` rejects any secret as `InvalidModulus`;
`q = 3` with secret `5` rejects as `SecretOutOfRange`. -/
theorem construction_validation_witness :
    Player.init 5 4 = .error .invalidModulus ∧
      Player.init 5 3 = .error .secretOutOfRange :=
  ⟨((construction_validation 5 4 zf zf).1 (by decide)).1,
   ((construction_validation 5 3 zf zf).2 (by decide) (by decide)).1⟩

/-- C5 witness: index `513 = n` is rejected, and sign `2` at the valid
index `0` is rejected. -/
theorem ot_query_validation_witness :
    s0.ot 513 1 = .error .indexOutOfRange ∧ s0.ot 0 2 = .error .invalidSign :=
  have h1 : Sender.init 1 2 zf = .ok s0 := by decide
  ⟨(ot_query_validation 1 2 zf s0 513 1 h1).1 (by decide),
   (ot_query_validation 1 2 zf s0 0 2 h1).2 (by decide) (by decide) (by decide)⟩

/-- C6 witness: a sender over `q = 3` paired with a receiver over
`q = 2` aborts with `InvalidPairing`. -/
theorem play_pairing_validation_witness :
    Sender.init 1 3 zf = .ok s1 ∧ Receiver.init 1 2 zf = .ok r0 ∧
      play r0 s1 zf 0 = .error .invalidPairing :=
  have h1 : Sender.init 1 3 zf = .ok s1 := by decide
  have h2 : Receiver.init 1 2 zf = .ok r0 := by decide
  ⟨h1, h2, play_pairing_validation 1 1 3 2 zf zf zf 0 s1 r0 h1 h2 (by decide)⟩

/-- C9 witness: the receiver built by `Receiver.init 1 2 zf`. -/
theorem sign_vector_pm_witness :
    Receiver.init 1 2 zf = .ok r0 ∧
      ((∀ x : Nat, sample_t x = 1 ∨ sample_t x = -1) ∧
        r0.t.length = r0.n ∧ ∀ y ∈ r0.t, y = 1 ∨ y = -1) :=
  have h : Receiver.init 1 2 zf = .ok r0 := by decide
  ⟨h, sign_vector_pm 1 2 zf r0 h⟩

/-- C10 witness: concrete parties over `q = 2` with the zero oracle. -/
theorem range_invariants_witness :
    Sender.init 1 2 zf = .ok s0 ∧ Receiver.init 1 2 zf = .ok r0 ∧
      ((s0.delta.length = s0.n ∧ ∀ x ∈ s0.delta, 0 ≤ x ∧ x < (s0.q : Int)) ∧
        (r0.v zf 0).length = r0.n ∧ ∀ x ∈ r0.v zf 0, 0 ≤ x ∧ x < (r0.q : Int)) :=
  have h1 : Sender.init 1 2 zf = .ok s0 := by decide
  have h2 : Receiver.init 1 2 zf = .ok r0 := by decide
  ⟨h1, h2, range_invariants 1 1 2 zf zf zf 0 s0 r0 h1 h2
    (fun i => Nat.zero_lt_two) (fun i => Nat.zero_lt_two) (by decide)⟩

end MtA
